import Mathlib

/-!
Verification development for the course-recommendation repository.

This file gives a shallow embedding of the repository's core algorithms and
proves the specification's claims about them:

* `topKIndices`, `candidatesFor`, `rerank`, `mapOne`, `mapSkills` embed
  `_top_k_indices`, the candidate construction, `RerankerService.rerank` and
  the decision loop `_map_skills` of
  `services/data_factory/src/pipelines/course_skill_mapping_pipeline.py` and
  `services/data_factory/src/services/reranker_service.py`.
  Similarity scores are embedded as rationals; the cross-encoder model is an
  abstract scoring function `String → String → ℚ`; a reranker call that can
  raise is embedded as `Except String _`, and an uncaught exception is the
  propagated `Except.error` (the source has no try/except around the call).
* `normalizeVectors` embeds `_normalize_vectors` over real matrices
  (rows as lists); `np.linalg.norm` is the L2 norm `Real.sqrt ∘ sumSq`.
* `Course`, `dependsOn`, `peelLevels`, `createLearningPath`, `prereqLevel`,
  `recommendLearningPath` embed `_create_learning_path` and
  `recommend_courses` of `src/service_api/services/course_recommendation.py`.
  Course records carry the ids of their taught/required skills; the Neo4j
  query upstream returns DISTINCT courses, so theorems assume course ids are
  pairwise distinct, under which Python's id-keyed dicts in the source agree
  with the list-based definitions here.
* `mainTrace`, `encoderResident`, `rerankerResident` embed the two-phase
  orchestration of `services/data_factory/scripts/map_course_skills.py` as
  the sequence of resource events it performs.
-/

/-! ### Top-K selection (`_top_k_indices`) -/

/-- First index attaining the maximal score, as `np.argmax` (ties resolved to
the lowest index). Only meaningful for nonempty score lists. -/
def argmaxIdx (scores : List ℚ) : Nat :=
  (List.range scores.length).foldl
    (fun best i => if scores.getD best 0 < scores.getD i 0 then i else best) 0

/-- Ordering on indices: descending by score, ties by ascending index. -/
def idxLe (scores : List ℚ) (i j : Nat) : Prop :=
  scores.getD j 0 < scores.getD i 0 ∨ (scores.getD i 0 = scores.getD j 0 ∧ i ≤ j)

instance (scores : List ℚ) : DecidableRel (idxLe scores) := fun i j => by
  unfold idxLe; infer_instance

/-- Indices of `scores` sorted by descending score. The source computes
`np.argpartition(-scores, k-1)[:k]` followed by `np.argsort(-scores[partition])`;
numpy leaves the relative order of equal scores unspecified (introselect plus
an unstable quicksort), so this embedding instantiates the deterministic
refinement "ties by ascending original index", which is also what the
`np.argmax` branch of the source does for `k = 1`. -/
def argsortDesc (scores : List ℚ) : List Nat :=
  List.insertionSort (idxLe scores) (List.range scores.length)

/-- Embedding of `_top_k_indices(scores, k)`. -/
def topKIndices (scores : List ℚ) (k : Nat) : List Nat :=
  if scores.length = 0 then []
  else
    let k2 := min k scores.length
    if k2 = 1 then [argmaxIdx scores]
    else (argsortDesc scores).take k2

/-! ### Records of the mapping pipeline -/

/-- Metadata record of one taxonomy (ESCO) entry, as the dict rows of
`esco_metadata` read with `.get` in the source. -/
structure EscoSkill where
  skill_id : Option String
  preferred_label : Option String
  description : Option String
  alternative_labels : List String
deriving DecidableEq, Repr, Inhabited

/-- Embedding of `_compose_esco_text`. -/
def composeEscoText (e : EscoSkill) : String :=
  let parts := [e.preferred_label.getD "", e.description.getD ""]
  let parts :=
    if e.alternative_labels.isEmpty then parts
    else parts ++ [String.intercalate "; " e.alternative_labels]
  String.intercalate ". " (parts.filter (fun p => !(p == "")))

/-- Embedding of the `CourseSkill` dataclass
(`services/data_factory/src/models/course_skill.py`). -/
structure CourseSkill where
  course_id : String
  course_title : String
  skill_name : String
  skill_type : String
  description : Option String
  category : Option String
  proficiency_level : Option Int
  bloom_taxonomy_level : Option String
  source_file : String
deriving DecidableEq, Repr, Inhabited

/-- Embedding of `CourseSkill.to_embedding_payload`; `if self.x:` tests of the
source are Python truthiness, i.e. the field is present and nonempty. -/
def toEmbeddingPayload (c : CourseSkill) : String :=
  let fragments := [c.skill_name]
  let fragments :=
    match c.description with
    | some d => if d == "" then fragments else fragments ++ [d]
    | none => fragments
  let fragments :=
    match c.category with
    | some cat => if cat == "" then fragments else fragments ++ ["Category: " ++ cat]
    | none => fragments
  let fragments :=
    match c.bloom_taxonomy_level with
    | some b => if b == "" then fragments else fragments ++ ["Bloom level: " ++ b]
    | none => fragments
  let fragments :=
    match c.proficiency_level with
    | some n => fragments ++ ["Proficiency: " ++ toString n]
    | none => fragments
  let fragments := fragments ++ ["Course: " ++ c.course_title]
  String.intercalate ". " (fragments.filter (fun f => !(f == "")))

/-- Embedding of the `MappedCourseSkill` dataclass. -/
structure MappedCourseSkill where
  original : CourseSkill
  esco_skill_id : Option String
  esco_preferred_label : Option String
  esco_description : Option String
  similarity_score : Option ℚ
deriving DecidableEq, Repr

/-- One candidate dict built in the `_map_skills` loop:
`{"index": i, "similarity": similarities[i], "text": ..., "metadata": ...}`;
`rerank_score` is the key the reranker adds (`none` before reranking). The
`metadata` entry is recoverable from `index` and is not duplicated here. -/
structure Candidate where
  index : Nat
  similarity : ℚ
  text : String
  rerank_score : Option ℚ
deriving DecidableEq, Repr

instance : Inhabited Candidate := ⟨⟨0, 0, "", none⟩⟩

/-- The candidate list `_map_skills` builds for one query from the top-k
indices of its similarity row. -/
def candidatesFor (metadata : List EscoSkill) (similarities : List ℚ) (topk : Nat) :
    List Candidate :=
  (topKIndices similarities topk).map fun i =>
    { index := i
      similarity := similarities.getD i 0
      text := composeEscoText (metadata.getD i default)
      rerank_score := none }

/-! ### Reranker (`RerankerService.rerank`) -/

/-- Sort key of the final `reranked.sort(key=rerank_score, reverse=True)`. -/
def rerankScoreKey (c : Candidate) : ℚ := c.rerank_score.getD 0

/-- Descending-by-rerank-score relation; non-strict, so the stable sort below
keeps the original candidate order on ties, as Python's stable `list.sort`. -/
def rerankDescLe (a b : Candidate) : Prop := rerankScoreKey b ≤ rerankScoreKey a

instance : DecidableRel rerankDescLe := fun a b => by
  unfold rerankDescLe; infer_instance

/-- Embedding of `RerankerService.rerank`. The cross-encoder is the abstract
per-pair scoring function `model`; the source computes the same per-pair
scores in bounded batches, which does not change the resulting score list.
A stable sort with respect to a total preorder has a unique result, so
`insertionSort` here equals Python's stable `list.sort`. -/
def rerank (model : String → String → ℚ) (query : String) (candidates : List Candidate) :
    List Candidate :=
  if candidates.isEmpty then []
  else
    let scored := candidates.map fun c => { c with rerank_score := some (model query c.text) }
    List.insertionSort rerankDescLe scored

/-! ### Mapping decision (`_map_skills`) -/

/-- The guarded reranker call of `_map_skills`:
`if self._reranker and candidates: reranked_candidates = self._reranker.rerank(...)`.
The call returns `Except String _` because `RerankerService.rerank` may
raise; `_map_skills` has no handler, so an error propagates. -/
def rerankStep (reranker : Option (String → List Candidate → Except String (List Candidate)))
    (query : String) (candidates : List Candidate) :
    Except String (Option (List Candidate)) :=
  match reranker with
  | some r =>
      if candidates.isEmpty then Except.ok none
      else (r query candidates).map some
  | none => Except.ok none

/-- Python's `reranked_candidates or candidates`: the reranked list when it
is present and nonempty, the raw candidate list otherwise. -/
def finalCandidates (candidates : List Candidate) (rerankedOpt : Option (List Candidate)) :
    List Candidate :=
  match rerankedOpt with
  | some l => if l.isEmpty then candidates else l
  | none => candidates

/-- The threshold decision of `_map_skills` on the chosen (first) candidate:
reject with a null mapping but retained similarity when
`best_score < threshold`, otherwise resolve to the metadata entry at
`chosen["index"]`. -/
def decideRecord (metadata : List EscoSkill) (threshold : ℚ) (skill : CourseSkill)
    (chosen : Candidate) : MappedCourseSkill :=
  if chosen.similarity < threshold then
    ⟨skill, none, none, none, some chosen.similarity⟩
  else
    let esco := metadata.getD chosen.index default
    ⟨skill, esco.skill_id, esco.preferred_label, esco.description, some chosen.similarity⟩

/-- One iteration of the `_map_skills` loop for the query `skill` with
similarity row `similarities`: empty rows yield an all-null record, otherwise
the first candidate of the final ordering (`(reranked_candidates or
candidates)[0]`) is passed to the threshold decision. -/
def mapOne (reranker : Option (String → List Candidate → Except String (List Candidate)))
    (metadata : List EscoSkill) (topk : Nat) (threshold : ℚ)
    (skill : CourseSkill) (similarities : List ℚ) : Except String MappedCourseSkill :=
  if similarities.length = 0 then
    Except.ok ⟨skill, none, none, none, none⟩
  else
    match rerankStep reranker (toEmbeddingPayload skill)
        (candidatesFor metadata similarities topk) with
    | Except.error e => Except.error e
    | Except.ok rerankedOpt =>
        Except.ok (decideRecord metadata threshold skill
          ((finalCandidates (candidatesFor metadata similarities topk)
            rerankedOpt).headD default))

/-- The `_map_skills` loop over all queries paired with their similarity rows;
an error from any iteration aborts the whole run, as an uncaught exception. -/
def mapSkillsAux (reranker : Option (String → List Candidate → Except String (List Candidate)))
    (metadata : List EscoSkill) (topk : Nat) (threshold : ℚ) :
    List (CourseSkill × List ℚ) → Except String (List MappedCourseSkill)
  | [] => Except.ok []
  | p :: rest =>
    match mapOne reranker metadata topk threshold p.1 p.2 with
    | Except.error e => Except.error e
    | Except.ok r =>
      match mapSkillsAux reranker metadata topk threshold rest with
      | Except.error e => Except.error e
      | Except.ok rs => Except.ok (r :: rs)

/-- Embedding of `_map_skills`. `simRows` are the rows of the similarity
matrix `normalized_course @ normalized_esco.T`, one row per input skill by
construction in the source; `rerankTopK` is clamped as
`top_k = max(1, self._settings.mapping.rerank_top_k)`. -/
def mapSkills (reranker : Option (String → List Candidate → Except String (List Candidate)))
    (metadata : List EscoSkill) (rerankTopK : Nat) (threshold : ℚ)
    (skills : List CourseSkill) (simRows : List (List ℚ)) :
    Except String (List MappedCourseSkill) :=
  mapSkillsAux reranker metadata (max 1 rerankTopK) threshold (skills.zip simRows)

/-! ### Vector normalization (`_normalize_vectors`) -/

/-- Sum of squares of a row; `Real.sqrt (sumSq row)` is its L2 norm. -/
def sumSq (row : List ℝ) : ℝ := (row.map fun x => x * x).sum

/-- Embedding of `_normalize_vectors`: the `vectors.size == 0` guard is the
total element count being zero; each row is divided by its L2 norm with a
zero norm replaced by `1.0` (`np.where(norms == 0, 1.0, norms)`). -/
noncomputable def normalizeVectors (m : List (List ℝ)) : List (List ℝ) :=
  if (m.map fun r => r.length).sum = 0 then m
  else
    m.map fun row =>
      let n := Real.sqrt (sumSq row)
      let d := if n = 0 then 1 else n
      row.map fun x => x / d

/-! ### Learning path (`_create_learning_path`, `recommend_courses`) -/

/-- A course as enriched by `_enrich_courses_with_skills`: its id and the ids
of the skills it teaches / requires (the `skill_id` fields of the dicts in
`taught_skills` / `required_skills`). -/
structure Course where
  course_id : String
  taught_skill_ids : List String
  required_skill_ids : List String
deriving DecidableEq, Repr

/-- Edge test of `_create_learning_path`: course `c` depends on course
`other` iff their ids differ and `c`'s required-skill set intersects
`other`'s taught-skill set; then the source records the edge
`other → c` and increments `in_degree[c]`. -/
def dependsOn (c other : Course) : Bool :=
  c.course_id != other.course_id &&
    c.required_skill_ids.any (fun s => other.taught_skill_ids.contains s)

/-- The course ids in input order: the iteration order of the id-keyed dicts
`in_degree` and `course_map` when ids are pairwise distinct. -/
def keysOf (courses : List Course) : List String := courses.map (fun c => c.course_id)

/-- Adjacency list `graph[y]` of the source: the ids of courses depending on
the course with id `y`, appended in input order of the depending course. -/
def adjListOf (courses : List Course) (y : String) : List String :=
  match courses.find? (fun c => c.course_id == y) with
  | some other => (courses.filter (fun c => dependsOn c other)).map (fun c => c.course_id)
  | none => []

/-- Initial `in_degree[x]`: the number of courses that the course with id `x`
depends on. Integer-valued, as the source's Python ints. -/
def inDegOf (courses : List Course) (x : String) : Int :=
  match courses.find? (fun c => c.course_id == x) with
  | some c => ((courses.filter (fun other => dependsOn c other)).length : Int)
  | none => 0

/-- The initial Kahn queue: ids of in-degree-0 courses in input order. -/
def initQueue (courses : List Course) : List String :=
  (keysOf courses).filter (fun cid => inDegOf courses cid == 0)

/-- Decrement the degree of one neighbour `nb`; enqueue it when the degree
reaches exactly 0 (`in_degree[neighbor] -= 1; if in_degree[neighbor] == 0`). -/
def decrOne (st : (String → Int) × List String) (nb : String) : (String → Int) × List String :=
  let d := st.1 nb - 1
  (Function.update st.1 nb d, if d = 0 then st.2 ++ [nb] else st.2)

/-- Process one dequeued node `p`: decrement all its neighbours in adjacency
order, collecting newly zero-degree nodes for the next level. -/
def processNode (adj : String → List String) (st : (String → Int) × List String) (p : String) :
    (String → Int) × List String :=
  (adj p).foldl decrOne st

/-- The level-by-level Kahn peeling of `_create_learning_path`: each `while`
round drains the current queue as one level; neighbours reaching degree 0
during a round form the next round's queue. `fuel` bounds the rounds; every
round consumes at least one node that is never re-enqueued, so
`fuel = courses.length` captures the full run. -/
def peel (adj : String → List String) : Nat → (String → Int) → List String → List (List String)
  | 0, _, _ => []
  | Nat.succ fuel, deg, queue =>
    if queue.isEmpty then []
    else
      let st := queue.foldl (processNode adj) (deg, [])
      queue :: peel adj fuel st.1 st.2

/-- The peeled levels of the input course set. -/
def peelLevels (courses : List Course) : List (List String) :=
  peel (adjListOf courses) courses.length (inDegOf courses) (initQueue courses)

/-- Nodes that never reached in-degree 0
(`[cid for cid in in_degree if cid not in sorted_order]`), in key order. -/
def remainingOf (courses : List Course) : List String :=
  let peeled := (peelLevels courses).flatten
  (keysOf courses).filter (fun cid => !(peeled.contains cid))

/-- The return value of `_create_learning_path`: the concatenated levels
followed by the remaining (cycle) bucket. -/
def createLearningPath (courses : List Course) : List String :=
  (peelLevels courses).flatten ++ remainingOf courses

/-- The `prerequisite_level` of the course with id `cid` after
`_create_learning_path` ran: the peel round that drained it, or the default
`0` assigned by `_enrich_courses_with_skills` if it was never drained. -/
def prereqLevel (courses : List Course) (cid : String) : Nat :=
  match (peelLevels courses).findIdx? (fun lvl => lvl.contains cid) with
  | some i => i
  | none => 0

/-- The `learning_path` field `recommend_courses` actually returns:
`final_courses = enriched_courses[:max_courses]` and
`final_path = [c["course_id"] for c in final_courses]`. The value of
`_create_learning_path` is computed but not used for this field. -/
def recommendLearningPath (courses : List Course) (maxCourses : Nat) : List String :=
  (courses.take maxCourses).map (fun c => c.course_id)

/-! ### Two-phase orchestration (`scripts/map_course_skills.py`) -/

/-- Resource events of `main` in `scripts/map_course_skills.py`. -/
inductive PhaseEvent where
  | loadEncoder
  | encodeQueries
  | dropEncoderRef
  | forceGC
  | clearAcceleratorCache
  | loadReranker
  | runMapping
deriving DecidableEq, Repr

/-- The straight-line event sequence of `main`: construct the embedding
service (loads the encoder), run the embedding phase over all queries,
`del` the model and service, `gc.collect()`, `torch.cuda.empty_cache()` when
CUDA is available, construct the reranker service when enabled (loads the
scorer), then run the mapping phase (reranking and mapping decisions). -/
def mainTrace (cudaAvailable rerankerEnabled : Bool) : List PhaseEvent :=
  [PhaseEvent.loadEncoder, PhaseEvent.encodeQueries, PhaseEvent.dropEncoderRef,
    PhaseEvent.forceGC]
    ++ (if cudaAvailable then [PhaseEvent.clearAcceleratorCache] else [])
    ++ (if rerankerEnabled then [PhaseEvent.loadReranker] else [])
    ++ [PhaseEvent.runMapping]

/-- Whether the encoder model is resident after the given event prefix. -/
def encoderResident (t : List PhaseEvent) : Bool :=
  t.foldl
    (fun r e =>
      match e with
      | PhaseEvent.loadEncoder => true
      | PhaseEvent.dropEncoderRef => false
      | _ => r)
    false

/-- Whether the reranker model is resident after the given event prefix. -/
def rerankerResident (t : List PhaseEvent) : Bool :=
  t.foldl
    (fun r e =>
      match e with
      | PhaseEvent.loadReranker => true
      | _ => r)
    false

/-! ## Helper lemmas: top-K selection -/

instance (scores : List ℚ) : IsTotal Nat (idxLe scores) := by
  constructor
  intro i j
  unfold idxLe
  rcases lt_trichotomy (scores.getD i 0) (scores.getD j 0) with h | h | h
  · exact Or.inr (Or.inl h)
  · rcases Nat.le_total i j with hij | hji
    · exact Or.inl (Or.inr ⟨h, hij⟩)
    · exact Or.inr (Or.inr ⟨h.symm, hji⟩)
  · exact Or.inl (Or.inl h)

instance (scores : List ℚ) : IsTrans Nat (idxLe scores) := by
  constructor
  intro a b c hab hbc
  unfold idxLe at *
  rcases hab with h1 | ⟨h1, h1le⟩
  · rcases hbc with h2 | ⟨h2, _⟩
    · exact Or.inl (h2.trans h1)
    · exact Or.inl (h2 ▸ h1)
  · rcases hbc with h2 | ⟨h2, h2le⟩
    · exact Or.inl (h1 ▸ h2)
    · exact Or.inr ⟨h1.trans h2, h1le.trans h2le⟩

lemma argsortDesc_perm (scores : List ℚ) :
    (argsortDesc scores).Perm (List.range scores.length) :=
  List.perm_insertionSort _ _

lemma argsortDesc_nodup (scores : List ℚ) : (argsortDesc scores).Nodup :=
  (argsortDesc_perm scores).nodup_iff.mpr (List.nodup_range _)

lemma argsortDesc_sorted (scores : List ℚ) :
    List.Pairwise (idxLe scores) (argsortDesc scores) :=
  List.sorted_insertionSort _ _

lemma foldl_best_lt (scores : List ℚ) (n : Nat) :
    ∀ (l : List Nat) (b : Nat), b < n → (∀ i ∈ l, i < n) →
      l.foldl (fun best i => if scores.getD best 0 < scores.getD i 0 then i else best) b < n := by
  intro l
  induction l with
  | nil => intro b hb _; simpa using hb
  | cons hd tl ih =>
      intro b hb hm
      rw [List.foldl_cons]
      apply ih
      · split
        · exact hm hd (by simp)
        · exact hb
      · intro i hi; exact hm i (by simp [hi])

lemma argmaxIdx_lt (scores : List ℚ) (hs : scores ≠ []) : argmaxIdx scores < scores.length := by
  have hn : 0 < scores.length := List.length_pos.mpr hs
  unfold argmaxIdx
  exact foldl_best_lt scores scores.length (List.range scores.length) 0 hn
    (fun i hi => List.mem_range.mp hi)

lemma topKIndices_length (scores : List ℚ) (k : Nat) (hk : 1 ≤ k) :
    (topKIndices scores k).length = min k scores.length := by
  unfold topKIndices
  by_cases h0 : scores.length = 0
  · simp [h0]
  · simp only [h0, if_false]
    by_cases h1 : min k scores.length = 1
    · simp [h1]
    · simp only [h1, if_false, List.length_take, argsortDesc,
        List.length_insertionSort, List.length_range]
      omega

lemma topKIndices_ne_nil (scores : List ℚ) (k : Nat) (hs : scores ≠ []) (hk : 1 ≤ k) :
    topKIndices scores k ≠ [] := by
  have h := topKIndices_length scores k hk
  intro hnil
  rw [hnil] at h
  have : 0 < scores.length := List.length_pos.mpr hs
  simp at h
  omega

lemma topKIndices_nodup (scores : List ℚ) (k : Nat) : (topKIndices scores k).Nodup := by
  unfold topKIndices
  by_cases h0 : scores.length = 0
  · simp [h0]
  · simp only [h0, if_false]
    by_cases h1 : min k scores.length = 1
    · simp [h1]
    · simp only [h1, if_false]
      exact (List.take_sublist _ _).nodup (argsortDesc_nodup scores)

lemma topKIndices_mem_lt (scores : List ℚ) (k : Nat) :
    ∀ i ∈ topKIndices scores k, i < scores.length := by
  unfold topKIndices
  by_cases h0 : scores.length = 0
  · simp [h0]
  · simp only [h0, if_false]
    by_cases h1 : min k scores.length = 1
    · simp only [h1, if_true]
      intro i hi
      have hs : scores ≠ [] := fun h => h0 (by simp [h])
      have : i = argmaxIdx scores := by simpa using hi
      exact this ▸ argmaxIdx_lt scores hs
    · simp only [h1, if_false]
      intro i hi
      have : i ∈ argsortDesc scores := (List.take_sublist _ _).mem hi
      exact List.mem_range.mp ((argsortDesc_perm scores).mem_iff.mp this)

/-! ## Claim C2 -/

/-- Claim C2 (the code contradicts it): `recommend_courses` computes
`_create_learning_path(enriched_courses)` but never uses the result; the
`learning_path` it returns is just the first `max_courses` course ids in
input order. With courses `[A, B]` where `A` requires skill `s1` and `B`
teaches `s1`, the Kahn order is `["B", "A"]` and the assigned levels are
`level(B) = 0 < 1 = level(A)`, yet the returned path is `["A", "B"]`, so
course `A` precedes course `B` of strictly lower prerequisite level. -/
theorem recommend_path_ignores_leveling :
    recommendLearningPath [⟨"A", ["s2"], ["s1"]⟩, ⟨"B", ["s1"], []⟩] 10 = ["A", "B"] ∧
    createLearningPath [⟨"A", ["s2"], ["s1"]⟩, ⟨"B", ["s1"], []⟩] = ["B", "A"] ∧
    prereqLevel [⟨"A", ["s2"], ["s1"]⟩, ⟨"B", ["s1"], []⟩] "A" = 1 ∧
    prereqLevel [⟨"A", ["s2"], ["s1"]⟩, ⟨"B", ["s1"], []⟩] "B" = 0 := by
  decide

/-! ## Claim C6 -/

/-- Claim C6: in every run of `main` (any CUDA availability, reranker enabled
or not), the encoder and the reranker are never resident simultaneously at
any point of the trace; the encoder is loaded before encoding, all encoding
precedes the release (reference drop, forced GC, and accelerator-cache clear
when an accelerator is present), the release precedes the reranker load, and
the mapping-decision phase runs last, after the reranker load. -/
theorem scheduler_phase_discipline :
    ∀ cuda rr : Bool,
      (∀ k : Nat, k ≤ (mainTrace cuda rr).length →
        ¬(encoderResident ((mainTrace cuda rr).take k) = true ∧
          rerankerResident ((mainTrace cuda rr).take k) = true)) ∧
      (mainTrace cuda rr).indexOf PhaseEvent.loadEncoder <
        (mainTrace cuda rr).indexOf PhaseEvent.encodeQueries ∧
      (mainTrace cuda rr).indexOf PhaseEvent.encodeQueries <
        (mainTrace cuda rr).indexOf PhaseEvent.dropEncoderRef ∧
      (mainTrace cuda rr).indexOf PhaseEvent.dropEncoderRef <
        (mainTrace cuda rr).indexOf PhaseEvent.forceGC ∧
      (cuda = true →
        (mainTrace cuda rr).indexOf PhaseEvent.forceGC <
          (mainTrace cuda rr).indexOf PhaseEvent.clearAcceleratorCache) ∧
      (rr = true →
        (mainTrace cuda rr).indexOf PhaseEvent.dropEncoderRef <
          (mainTrace cuda rr).indexOf PhaseEvent.loadReranker ∧
        (cuda = true →
          (mainTrace cuda rr).indexOf PhaseEvent.clearAcceleratorCache <
            (mainTrace cuda rr).indexOf PhaseEvent.loadReranker) ∧
        (mainTrace cuda rr).indexOf PhaseEvent.loadReranker <
          (mainTrace cuda rr).indexOf PhaseEvent.runMapping) ∧
      (mainTrace cuda rr).getLast? = some PhaseEvent.runMapping := by
  intro cuda rr
  cases cuda <;> cases rr <;> exact (by decide)

/-- Witness for C6 at `cuda = true`, `rr = true`, prefix length 6 (the point
just after the reranker load): the two models are not both resident. -/
theorem scheduler_phase_discipline_witness :
    ¬(encoderResident ((mainTrace true true).take 6) = true ∧
      rerankerResident ((mainTrace true true).take 6) = true) :=
  (scheduler_phase_discipline true true).1 6 (by decide)

/-! ## Claim C3 -/

/-- Claim C3 fails as stated: with the tied score row `[1, 1]` and `k = 2`
the selection returns both indices, whose scores are equal, so the output is
not ordered strictly descending by score. -/
theorem topK_strictly_descending_fails :
    topKIndices [(1 : ℚ), 1] 2 = [0, 1] ∧
    ¬ List.Pairwise (fun i j => ([(1 : ℚ), 1].getD j 0) < ([(1 : ℚ), 1].getD i 0))
      (topKIndices [(1 : ℚ), 1] 2) := by
  decide

/-- Claim C3 (amended): for every score row and every `k ≥ 1`, the top-K
selection returns exactly `min k n` indices, without duplicates, all in
range, ordered by nonincreasing score with ties broken by ascending original
index (hence strictly descending whenever the selected scores are distinct).
The tie order instantiates numpy's unspecified equal-score order, see
`argsortDesc`. -/
theorem topK_spec (scores : List ℚ) (k : Nat) (hk : 1 ≤ k) :
    (topKIndices scores k).length = min k scores.length ∧
    (topKIndices scores k).Nodup ∧
    List.Pairwise (fun i j => scores.getD j 0 < scores.getD i 0 ∨
      (scores.getD i 0 = scores.getD j 0 ∧ i < j)) (topKIndices scores k) ∧
    ∀ i ∈ topKIndices scores k, i < scores.length := by
  refine ⟨topKIndices_length scores k hk, topKIndices_nodup scores k, ?_,
    topKIndices_mem_lt scores k⟩
  unfold topKIndices
  by_cases h0 : scores.length = 0
  · simp [h0]
  · simp only [h0, if_false]
    by_cases h1 : min k scores.length = 1
    · simp [h1]
    · simp only [h1, if_false]
      have hsorted : List.Pairwise (idxLe scores) (argsortDesc scores) :=
        argsortDesc_sorted scores
      have hne : List.Pairwise (fun i j : Nat => i ≠ j) (argsortDesc scores) :=
        argsortDesc_nodup scores
      have hand := hsorted.and hne
      have hstrict : List.Pairwise (fun i j => scores.getD j 0 < scores.getD i 0 ∨
          (scores.getD i 0 = scores.getD j 0 ∧ i < j)) (argsortDesc scores) := by
        refine hand.imp ?_
        rintro i j ⟨hle, hne2⟩
        rcases hle with h | ⟨heq, hij⟩
        · exact Or.inl h
        · exact Or.inr ⟨heq, lt_of_le_of_ne hij hne2⟩
      exact hstrict.sublist (List.take_sublist _ _)

/-- Witness for C3 (amended) at scores `[3, 1, 3]`, `k = 2`: two indices,
no duplicates, nonincreasing with the tie `(0, 2)` broken by index. -/
theorem topK_spec_witness :
    (1 : Nat) ≤ 2 ∧
    ((topKIndices [(3 : ℚ), 1, 3] 2).length = min 2 [(3 : ℚ), 1, 3].length ∧
      (topKIndices [(3 : ℚ), 1, 3] 2).Nodup ∧
      List.Pairwise (fun i j => [(3 : ℚ), 1, 3].getD j 0 < [(3 : ℚ), 1, 3].getD i 0 ∨
        ([(3 : ℚ), 1, 3].getD i 0 = [(3 : ℚ), 1, 3].getD j 0 ∧ i < j))
        (topKIndices [(3 : ℚ), 1, 3] 2) ∧
      ∀ i ∈ topKIndices [(3 : ℚ), 1, 3] 2, i < [(3 : ℚ), 1, 3].length) :=
  ⟨by decide, topK_spec [(3 : ℚ), 1, 3] 2 (by decide)⟩

/-! ## Claim C9 -/

/-- A candidate with its `rerank_score` key removed. -/
def stripRerankScore (c : Candidate) : Candidate := { c with rerank_score := none }

/-- Claim C9: on a nonempty candidate list, `rerank` returns a permutation of
its input candidates — the multiset of candidates with every field except the
added `rerank_score` (`index`, `similarity`, `text`) is preserved unchanged —
and every output candidate carries the model score of its own text. -/
theorem rerank_permutes_candidates (model : String → String → ℚ) (query : String)
    (cs : List Candidate) (h : cs ≠ []) :
    ((rerank model query cs).map stripRerankScore).Perm (cs.map stripRerankScore) ∧
    ∀ c ∈ rerank model query cs, c.rerank_score = some (model query c.text) := by
  have hne : cs.isEmpty = false := by
    cases cs with
    | nil => exact absurd rfl h
    | cons a t => rfl
  unfold rerank
  rw [hne]
  simp only [Bool.false_eq_true, if_false]
  constructor
  · have hperm := List.perm_insertionSort rerankDescLe
      (cs.map fun c => { c with rerank_score := some (model query c.text) })
    have h2 := hperm.map stripRerankScore
    have h3 : (cs.map fun c => { c with rerank_score := some (model query c.text) }).map
        stripRerankScore = cs.map stripRerankScore := by
      rw [List.map_map]
      rfl
    rw [h3] at h2
    exact h2
  · intro c hc
    have hc2 : c ∈ cs.map fun c0 => { c0 with rerank_score := some (model query c0.text) } :=
      (List.perm_insertionSort rerankDescLe _).subset hc
    obtain ⟨c0, _, rfl⟩ := List.mem_map.mp hc2
    rfl

/-- Witness for C9 on a concrete two-candidate list and scoring model. -/
theorem rerank_permutes_candidates_witness :
    ([⟨0, (9 : ℚ)/10, "x", none⟩, ⟨3, (1 : ℚ)/2, "y", none⟩] : List Candidate) ≠ [] ∧
    (((rerank (fun _ t => if t == "y" then 5 else 1) "q"
        [⟨0, (9 : ℚ)/10, "x", none⟩, ⟨3, (1 : ℚ)/2, "y", none⟩]).map stripRerankScore).Perm
      (([⟨0, (9 : ℚ)/10, "x", none⟩, ⟨3, (1 : ℚ)/2, "y", none⟩] : List Candidate).map
        stripRerankScore) ∧
      ∀ c ∈ rerank (fun _ t => if t == "y" then 5 else 1) "q"
          [⟨0, (9 : ℚ)/10, "x", none⟩, ⟨3, (1 : ℚ)/2, "y", none⟩],
        c.rerank_score = some ((fun _ t => if t == "y" then (5 : ℚ) else 1) "q" c.text)) :=
  ⟨by decide, rerank_permutes_candidates (fun _ t => if t == "y" then 5 else 1) "q"
    [⟨0, (9 : ℚ)/10, "x", none⟩, ⟨3, (1 : ℚ)/2, "y", none⟩] (by decide)⟩

/-! ## Helper lemmas: the mapping decision -/

lemma mapOne_ok_original
    (reranker : Option (String → List Candidate → Except String (List Candidate)))
    (metadata : List EscoSkill) (topk : Nat) (threshold : ℚ)
    (skill : CourseSkill) (similarities : List ℚ) (rec : MappedCourseSkill)
    (hok : mapOne reranker metadata topk threshold skill similarities = Except.ok rec) :
    rec.original = skill := by
  unfold mapOne at hok
  split at hok
  · injection hok with h
    rw [← h]
  · split at hok
    · exact absurd hok (by simp)
    · injection hok with h
      rw [← h]
      unfold decideRecord
      split
      · rfl
      · rfl

lemma decideRecord_gate (metadata : List EscoSkill) (threshold : ℚ) (skill : CourseSkill)
    (chosen : Candidate)
    (hid : (decideRecord metadata threshold skill chosen).esco_skill_id ≠ none) :
    ∃ s, (decideRecord metadata threshold skill chosen).similarity_score = some s ∧
      threshold ≤ s := by
  by_cases hc : chosen.similarity < threshold
  · rw [decideRecord, if_pos hc] at hid
    exact absurd rfl hid
  · rw [decideRecord, if_neg hc]
    exact ⟨_, rfl, not_lt.mp hc⟩

lemma mapOne_ok_gate
    (reranker : Option (String → List Candidate → Except String (List Candidate)))
    (metadata : List EscoSkill) (topk : Nat) (threshold : ℚ)
    (skill : CourseSkill) (similarities : List ℚ) (rec : MappedCourseSkill)
    (hok : mapOne reranker metadata topk threshold skill similarities = Except.ok rec)
    (hid : rec.esco_skill_id ≠ none) :
    ∃ s, rec.similarity_score = some s ∧ threshold ≤ s := by
  unfold mapOne at hok
  split at hok
  · injection hok with h
    rw [← h] at hid
    exact absurd rfl hid
  · split at hok
    · exact absurd hok (by simp)
    · injection hok with h
      rw [← h] at hid ⊢
      exact decideRecord_gate _ _ _ _ hid

lemma mapSkillsAux_ok_original
    (reranker : Option (String → List Candidate → Except String (List Candidate)))
    (metadata : List EscoSkill) (topk : Nat) (threshold : ℚ) :
    ∀ (ps : List (CourseSkill × List ℚ)) (out : List MappedCourseSkill),
      mapSkillsAux reranker metadata topk threshold ps = Except.ok out →
      out.map (fun r => r.original) = ps.map Prod.fst := by
  intro ps
  induction ps with
  | nil =>
      intro out h
      unfold mapSkillsAux at h
      injection h with h
      rw [← h]
      rfl
  | cons p rest ih =>
      intro out h
      unfold mapSkillsAux at h
      cases hmo : mapOne reranker metadata topk threshold p.1 p.2 with
      | error e => rw [hmo] at h; exact absurd h (by simp)
      | ok r =>
          rw [hmo] at h
          cases haux : mapSkillsAux reranker metadata topk threshold rest with
          | error e => rw [haux] at h; exact absurd h (by simp)
          | ok rs =>
              rw [haux] at h
              injection h with h2
              rw [← h2]
              simp only [List.map_cons]
              rw [mapOne_ok_original _ _ _ _ _ _ _ hmo, ih rs haux]

lemma mapSkillsAux_ok_gate
    (reranker : Option (String → List Candidate → Except String (List Candidate)))
    (metadata : List EscoSkill) (topk : Nat) (threshold : ℚ) :
    ∀ (ps : List (CourseSkill × List ℚ)) (out : List MappedCourseSkill),
      mapSkillsAux reranker metadata topk threshold ps = Except.ok out →
      ∀ rec ∈ out, rec.esco_skill_id ≠ none →
        ∃ s, rec.similarity_score = some s ∧ threshold ≤ s := by
  intro ps
  induction ps with
  | nil =>
      intro out h rec hrec
      unfold mapSkillsAux at h
      injection h with h
      rw [← h] at hrec
      exact absurd hrec (by simp)
  | cons p rest ih =>
      intro out h rec hrec hid
      unfold mapSkillsAux at h
      cases hmo : mapOne reranker metadata topk threshold p.1 p.2 with
      | error e => rw [hmo] at h; exact absurd h (by simp)
      | ok r =>
          rw [hmo] at h
          cases haux : mapSkillsAux reranker metadata topk threshold rest with
          | error e => rw [haux] at h; exact absurd h (by simp)
          | ok rs =>
              rw [haux] at h
              injection h with h2
              rw [← h2] at hrec
              rcases List.mem_cons.mp hrec with hr | hr
              · exact hr ▸ mapOne_ok_gate _ _ _ _ _ _ _ hmo (hr ▸ hid)
              · exact ih rs haux rec hr hid

lemma candidatesFor_ne_nil (metadata : List EscoSkill) (sims : List ℚ) (topk : Nat)
    (hs : sims ≠ []) (hk : 1 ≤ topk) :
    candidatesFor metadata sims topk ≠ [] := by
  unfold candidatesFor
  simp only [ne_eq, List.map_eq_nil_iff]
  exact topKIndices_ne_nil sims topk hs hk

lemma candidatesFor_mem (metadata : List EscoSkill) (sims : List ℚ) (topk : Nat)
    (c : Candidate) (hc : c ∈ candidatesFor metadata sims topk) :
    c.similarity = sims.getD c.index 0 ∧ c.rerank_score = none := by
  unfold candidatesFor at hc
  obtain ⟨i, _, rfl⟩ := List.mem_map.mp hc
  exact ⟨rfl, rfl⟩

lemma rerank_ne_nil (model : String → String → ℚ) (query : String)
    (cs : List Candidate) (h : cs ≠ []) : rerank model query cs ≠ [] := by
  have hne : cs.isEmpty = false := by
    cases cs with
    | nil => exact absurd rfl h
    | cons a t => rfl
  unfold rerank
  rw [hne]
  simp only [Bool.false_eq_true, if_false]
  intro hcon
  have := congrArg List.length hcon
  rw [List.length_insertionSort, List.length_map] at this
  exact h (List.length_eq_zero.mp this)

lemma rerank_mem_similarity (model : String → String → ℚ) (query : String)
    (metadata : List EscoSkill) (sims : List ℚ) (topk : Nat) (c : Candidate)
    (hc : c ∈ rerank model query (candidatesFor metadata sims topk)) :
    c.similarity = sims.getD c.index 0 := by
  unfold rerank at hc
  split at hc
  · exact absurd hc (by simp)
  · have hc2 := (List.perm_insertionSort rerankDescLe _).subset hc
    obtain ⟨c0, hc0, rfl⟩ := List.mem_map.mp hc2
    exact (candidatesFor_mem metadata sims topk c0 hc0).1

/-! ## Claim C10 -/

/-- Claim C10: whenever the mapping step returns a result list (for any
reranker, any taxonomy — including an empty one — and similarity rows in the
source's one-row-per-skill correspondence), it has exactly one output record
per input skill, in input order, with the original skill record embedded
unchanged; no query is dropped or duplicated. -/
theorem map_skills_one_record_per_query
    (reranker : Option (String → List Candidate → Except String (List Candidate)))
    (metadata : List EscoSkill) (rerankTopK : Nat) (threshold : ℚ)
    (skills : List CourseSkill) (simRows : List (List ℚ)) (out : List MappedCourseSkill)
    (hlen : simRows.length = skills.length)
    (hok : mapSkills reranker metadata rerankTopK threshold skills simRows = Except.ok out) :
    out.map (fun r => r.original) = skills ∧ out.length = skills.length := by
  unfold mapSkills at hok
  have h := mapSkillsAux_ok_original reranker metadata (max 1 rerankTopK) threshold
    (skills.zip simRows) out hok
  rw [List.map_fst_zip skills simRows (le_of_eq hlen.symm)] at h
  refine ⟨h, ?_⟩
  have := congrArg List.length h
  simpa using this

/-- Witness for C10: one skill, a one-entry taxonomy, no reranker; the
single output record embeds the original skill unchanged. -/
theorem map_skills_one_record_per_query_witness :
    ([⟨⟨"c1", "T", "python", "outcome", none, none, none, none, "f"⟩,
        some "S1", some "L", none, some 2⟩] : List MappedCourseSkill).map
        (fun r => r.original) =
      [⟨"c1", "T", "python", "outcome", none, none, none, none, "f"⟩] ∧
    ([⟨⟨"c1", "T", "python", "outcome", none, none, none, none, "f"⟩,
        some "S1", some "L", none, some 2⟩] : List MappedCourseSkill).length =
      ([⟨"c1", "T", "python", "outcome", none, none, none, none, "f"⟩] :
        List CourseSkill).length :=
  map_skills_one_record_per_query none [⟨some "S1", some "L", none, []⟩] 3 1
    [⟨"c1", "T", "python", "outcome", none, none, none, none, "f"⟩] [[(2 : ℚ)]]
    [⟨⟨"c1", "T", "python", "outcome", none, none, none, none, "f"⟩,
      some "S1", some "L", none, some 2⟩] rfl rfl

/-! ## Claim C1 -/

/-- Claim C1: (1) in any completed mapping run, every output record with a
non-null resolved taxonomy id carries a raw similarity `≥ threshold`
(rejection leaves the id null but retains the similarity); (2) for a query
with a nonempty similarity row and the real reranker in place, the decision
takes exactly the first candidate `chosen` of the reranked (final) ordering,
the value tested against the threshold is `chosen`'s raw cosine similarity
`similarities[chosen.index]` — never its rerank score — and the produced
record is the acceptance record at the metadata of `chosen.index` when
`threshold ≤` that raw similarity, and the null-id record retaining that raw
similarity otherwise. -/
theorem mapping_decision_policy :
    (∀ (reranker : Option (String → List Candidate → Except String (List Candidate)))
        (metadata : List EscoSkill) (rerankTopK : Nat) (threshold : ℚ)
        (skills : List CourseSkill) (simRows : List (List ℚ))
        (out : List MappedCourseSkill) (rec : MappedCourseSkill),
        mapSkills reranker metadata rerankTopK threshold skills simRows = Except.ok out →
        rec ∈ out → rec.esco_skill_id ≠ none →
        ∃ s, rec.similarity_score = some s ∧ threshold ≤ s) ∧
    (∀ (model : String → String → ℚ) (metadata : List EscoSkill) (topk : Nat)
        (threshold : ℚ) (skill : CourseSkill) (sims : List ℚ),
        1 ≤ topk → sims ≠ [] →
        ∃ chosen : Candidate,
          rerank model (toEmbeddingPayload skill) (candidatesFor metadata sims topk) ≠ [] ∧
          (rerank model (toEmbeddingPayload skill)
              (candidatesFor metadata sims topk)).headD default = chosen ∧
          chosen.similarity = sims.getD chosen.index 0 ∧
          mapOne (some (fun q cs => Except.ok (rerank model q cs))) metadata topk threshold
              skill sims =
            Except.ok
              (if chosen.similarity < threshold then
                ⟨skill, none, none, none, some chosen.similarity⟩
              else
                ⟨skill, (metadata.getD chosen.index default).skill_id,
                  (metadata.getD chosen.index default).preferred_label,
                  (metadata.getD chosen.index default).description,
                  some chosen.similarity⟩)) := by
  constructor
  · intro reranker metadata rerankTopK threshold skills simRows out rec hok hrec hid
    unfold mapSkills at hok
    exact mapSkillsAux_ok_gate reranker metadata (max 1 rerankTopK) threshold
      (skills.zip simRows) out hok rec hrec hid
  · intro model metadata topk threshold skill sims hk hs
    have hcne : candidatesFor metadata sims topk ≠ [] :=
      candidatesFor_ne_nil metadata sims topk hs hk
    have hcneB : (candidatesFor metadata sims topk).isEmpty = false := by
      cases hcc : candidatesFor metadata sims topk with
      | nil => exact absurd hcc hcne
      | cons a t => rfl
    have hrne : rerank model (toEmbeddingPayload skill) (candidatesFor metadata sims topk)
        ≠ [] := rerank_ne_nil model _ _ hcne
    refine ⟨(rerank model (toEmbeddingPayload skill)
      (candidatesFor metadata sims topk)).headD default, hrne, rfl, ?_, ?_⟩
    · apply rerank_mem_similarity model (toEmbeddingPayload skill) metadata sims topk
      cases hrr : rerank model (toEmbeddingPayload skill) (candidatesFor metadata sims topk)
        with
      | nil => exact absurd hrr hrne
      | cons a t => simp [hrr]
    · have hlen0 : ¬(sims.length = 0) := by
        rw [List.length_eq_zero]
        exact hs
      have hrneB : (rerank model (toEmbeddingPayload skill)
          (candidatesFor metadata sims topk)).isEmpty = false := by
        cases hrr : rerank model (toEmbeddingPayload skill)
          (candidatesFor metadata sims topk) with
        | nil => exact absurd hrr hrne
        | cons a t => rfl
      rw [mapOne, if_neg hlen0, rerankStep, hcneB]
      simp only [Bool.false_eq_true, if_false, Except.map]
      rw [finalCandidates, hrneB]
      simp only [Bool.false_eq_true, if_false]
      rw [decideRecord]

/-- Witness for C1 at a concrete model, taxonomy, query and similarity row:
both conjuncts applied at explicit inputs. -/
theorem mapping_decision_policy_witness :
    (mapSkills none [⟨some "S1", some "L", none, []⟩] 3 1
        [⟨"c1", "T", "python", "outcome", none, none, none, none, "f"⟩] [[(2 : ℚ)]] =
      Except.ok [⟨⟨"c1", "T", "python", "outcome", none, none, none, none, "f"⟩,
        some "S1", some "L", none, some 2⟩]) ∧
    (∃ chosen : Candidate,
      rerank (fun _ _ => 1) (toEmbeddingPayload
          ⟨"c1", "T", "python", "outcome", none, none, none, none, "f"⟩)
        (candidatesFor [⟨some "S1", some "L", none, []⟩] [(2 : ℚ)] 1) ≠ [] ∧
      (rerank (fun _ _ => 1) (toEmbeddingPayload
          ⟨"c1", "T", "python", "outcome", none, none, none, none, "f"⟩)
        (candidatesFor [⟨some "S1", some "L", none, []⟩] [(2 : ℚ)] 1)).headD default =
        chosen ∧
      chosen.similarity = [(2 : ℚ)].getD chosen.index 0 ∧
      mapOne (some (fun q cs => Except.ok (rerank (fun _ _ => 1) q cs)))
          [⟨some "S1", some "L", none, []⟩] 1 1
          ⟨"c1", "T", "python", "outcome", none, none, none, none, "f"⟩ [(2 : ℚ)] =
        Except.ok
          (if chosen.similarity < 1 then
            ⟨⟨"c1", "T", "python", "outcome", none, none, none, none, "f"⟩,
              none, none, none, some chosen.similarity⟩
          else
            ⟨⟨"c1", "T", "python", "outcome", none, none, none, none, "f"⟩,
              (([(⟨some "S1", some "L", none, []⟩ : EscoSkill)]).getD chosen.index
                default).skill_id,
              (([(⟨some "S1", some "L", none, []⟩ : EscoSkill)]).getD chosen.index
                default).preferred_label,
              (([(⟨some "S1", some "L", none, []⟩ : EscoSkill)]).getD chosen.index
                default).description,
              some chosen.similarity⟩)) :=
  ⟨by rfl,
    mapping_decision_policy.2 (fun _ _ => 1) [⟨some "S1", some "L", none, []⟩] 1 1
      ⟨"c1", "T", "python", "outcome", none, none, none, none, "f"⟩ [(2 : ℚ)]
      (by decide) (by decide)⟩

/-! ## Claim C4 -/

/-- Claim C4 fails on the source: `_map_skills` has no handler around
`self._reranker.rerank(...)`, so with a reranker that raises on every call
and two mappable queries, the whole run aborts with the error — it returns no
record list at all, instead of degrading the failing query to the
raw-similarity ordering and processing the other query normally. -/
theorem reranker_error_does_not_degrade :
    mapSkills (some (fun _ _ => Except.error "boom")) [⟨some "S1", some "L", none, []⟩] 3 1
        [⟨"c1", "T", "python", "outcome", none, none, none, none, "f"⟩,
         ⟨"c1", "T", "java", "entry", none, none, none, none, "f"⟩]
        [[(2 : ℚ)], [(2 : ℚ)]] = Except.error "boom" ∧
    (mapSkills (some (fun _ _ => Except.error "boom")) [⟨some "S1", some "L", none, []⟩] 3 1
        [⟨"c1", "T", "python", "outcome", none, none, none, none, "f"⟩,
         ⟨"c1", "T", "java", "entry", none, none, none, none, "f"⟩]
        [[(2 : ℚ)], [(2 : ℚ)]]).toOption = none :=
  ⟨rfl, rfl⟩

/-- Claim C4 (amended): when the reranker call raises for a query (here: the
first query, with a nonempty similarity row and hence a nonempty candidate
list), the exception propagates out of `_map_skills` and the whole mapping
run aborts with that error; no per-query degradation to the raw-similarity
ordering exists in the source — the spec itself marks the degrade-and-flag
policy as a redesign of this behavior. -/
theorem reranker_error_propagates
    (f : String → List Candidate → Except String (List Candidate))
    (metadata : List EscoSkill) (rerankTopK : Nat) (threshold : ℚ)
    (sk : CourseSkill) (rest : List CourseSkill) (row : List ℚ) (rrows : List (List ℚ))
    (e : String) (hrow : row ≠ [])
    (herr : f (toEmbeddingPayload sk) (candidatesFor metadata row (max 1 rerankTopK)) =
      Except.error e) :
    mapSkills (some f) metadata rerankTopK threshold (sk :: rest) (row :: rrows) =
      Except.error e := by
  have hlen0 : ¬(row.length = 0) := by
    rw [List.length_eq_zero]
    exact hrow
  have hcne : candidatesFor metadata row (max 1 rerankTopK) ≠ [] :=
    candidatesFor_ne_nil metadata row (max 1 rerankTopK) hrow (le_max_left 1 _)
  have hcneB : (candidatesFor metadata row (max 1 rerankTopK)).isEmpty = false := by
    cases hcc : candidatesFor metadata row (max 1 rerankTopK) with
    | nil => exact absurd hcc hcne
    | cons a t => rfl
  have hmo : mapOne (some f) metadata (max 1 rerankTopK) threshold sk row =
      Except.error e := by
    rw [mapOne, if_neg hlen0, rerankStep, hcneB]
    simp only [Bool.false_eq_true, if_false, herr, Except.map]
  unfold mapSkills
  rw [List.zip_cons_cons]
  unfold mapSkillsAux
  rw [hmo]

/-- Witness for C4 (amended) with a concrete always-failing reranker. -/
theorem reranker_error_propagates_witness :
    ([(2 : ℚ)] ≠ []) ∧
    mapSkills (some (fun _ _ => Except.error "x")) [⟨some "S1", some "L", none, []⟩] 2 1
        [⟨"c1", "T", "python", "outcome", none, none, none, none, "f"⟩] [[(2 : ℚ)]] =
      Except.error "x" :=
  ⟨by decide,
    reranker_error_propagates (fun _ _ => Except.error "x") [⟨some "S1", some "L", none, []⟩]
      2 1 ⟨"c1", "T", "python", "outcome", none, none, none, none, "f"⟩ [] [(2 : ℚ)] [] "x"
      (by decide) rfl⟩

/-! ## Claim C8 -/

lemma sumSq_nonneg (row : List ℝ) : 0 ≤ sumSq row := by
  apply List.sum_nonneg
  intro x hx
  obtain ⟨y, _, rfl⟩ := List.mem_map.mp hx
  exact mul_self_nonneg y

lemma sumSq_map_div (row : List ℝ) (d : ℝ) :
    sumSq (row.map fun x => x / d) = sumSq row / (d * d) := by
  induction row with
  | nil => simp [sumSq]
  | cons x t ih =>
      simp only [sumSq, List.map_cons, List.sum_cons] at ih ⊢
      rw [ih, div_mul_div_comm, div_add_div_same]

/-- Claim C8: normalization is total on every input matrix: the output has
one row per input row; a row of zero L2 norm is returned unchanged (its
divisor clamped to `1.0`), a row of nonzero norm is scaled to unit L2 norm,
and a matrix with no elements is returned as-is. -/
theorem normalize_vectors_safe (m : List (List ℝ)) :
    (normalizeVectors m).length = m.length ∧
    ∀ (i : Nat) (row : List ℝ), m[i]? = some row →
      ∃ row2, (normalizeVectors m)[i]? = some row2 ∧
        (Real.sqrt (sumSq row) = 0 → row2 = row) ∧
        (Real.sqrt (sumSq row) ≠ 0 → Real.sqrt (sumSq row2) = 1) := by
  unfold normalizeVectors
  by_cases hg : (m.map fun r => r.length).sum = 0
  · rw [if_pos hg]
    refine ⟨rfl, ?_⟩
    intro i row hrow
    refine ⟨row, hrow, fun _ => rfl, fun hn => ?_⟩
    exfalso
    apply hn
    have hmem : row ∈ m := by
      obtain ⟨h, he⟩ := List.getElem?_eq_some.mp hrow
      exact he ▸ List.getElem_mem h
    have hlen : row.length ≤ (m.map fun r => r.length).sum :=
      List.single_le_sum (fun x _ => Nat.zero_le x) _
        (List.mem_map_of_mem (fun r => r.length) hmem)
    rw [hg] at hlen
    have : row = [] := List.length_eq_zero.mp (Nat.le_zero.mp hlen)
    rw [this]
    simp [sumSq]
  · rw [if_neg hg]
    refine ⟨List.length_map _ _, ?_⟩
    intro i row hrow
    refine ⟨_, by rw [List.getElem?_map, hrow]; rfl, ?_, ?_⟩
    · intro h0
      simp only [h0, if_pos]
      simp
    · intro hn
      simp only [if_neg hn]
      have hS : sumSq row ≠ 0 := by
        intro h
        exact hn (by rw [h, Real.sqrt_zero])
      rw [sumSq_map_div, Real.mul_self_sqrt (sumSq_nonneg row), div_self hS, Real.sqrt_one]

/-- Witness for C8: in the matrix `[[3, 4], [0, 0]]` the zero-norm second row
is returned unchanged. -/
theorem normalize_vectors_safe_witness :
    ∃ row2, (normalizeVectors [[(3 : ℝ), 4], [0, 0]])[1]? = some row2 ∧
      (Real.sqrt (sumSq [(0 : ℝ), 0]) = 0 → row2 = [(0 : ℝ), 0]) ∧
      (Real.sqrt (sumSq [(0 : ℝ), 0]) ≠ 0 → Real.sqrt (sumSq row2) = 1) :=
  (normalize_vectors_safe [[(3 : ℝ), 4], [0, 0]]).2 1 [(0 : ℝ), 0] rfl

/-! ## Helper lemmas: Kahn peeling -/

/-- Total number of edges from nodes of `ps` into `x` (multiplicity of `x`
across the adjacency lists of `ps`). -/
def countE (adj : String → List String) (ps : List String) (x : String) : Nat :=
  (ps.map fun p => (adj p).count x).sum

lemma countE_cons (adj : String → List String) (p : String) (ps : List String) (x : String) :
    countE adj (p :: ps) x = (adj p).count x + countE adj ps x := by
  simp [countE]

lemma countE_append (adj : String → List String) (ps qs : List String) (x : String) :
    countE adj (ps ++ qs) x = countE adj ps x + countE adj qs x := by
  simp [countE]

lemma sublist_sum_le {l1 l2 : List Nat} (h : l1.Sublist l2) : l1.sum ≤ l2.sum := by
  induction h with
  | slnil => simp
  | cons a _ ih => simp only [List.sum_cons]; omega
  | cons₂ a _ ih => simp only [List.sum_cons]; omega

lemma countE_subperm_le (adj : String → List String) {ps qs : List String}
    (h : ps.Subperm qs) (x : String) : countE adj ps x ≤ countE adj qs x := by
  obtain ⟨l, hperm, hsub⟩ := h
  have h1 : countE adj ps x = countE adj l x := by
    unfold countE
    exact ((hperm.map fun p => (adj p).count x).sum_eq).symm
  rw [h1]
  exact sublist_sum_le (hsub.map fun p => (adj p).count x)

lemma countE_mem_le (adj : String → List String) {p : String} {ps : List String}
    (h : p ∈ ps) (x : String) : (adj p).count x ≤ countE adj ps x :=
  List.single_le_sum (fun y _ => Nat.zero_le y) _
    (List.mem_map_of_mem (fun p => (adj p).count x) h)

lemma countE_pos_exists (adj : String → List String) {ps : List String} {x : String}
    (h : 0 < countE adj ps x) : ∃ p ∈ ps, x ∈ adj p := by
  induction ps with
  | nil => simp [countE] at h
  | cons p t ih =>
      rw [countE_cons] at h
      by_cases hp : 0 < (adj p).count x
      · exact ⟨p, List.mem_cons_self p t, List.count_pos_iff.mp hp⟩
      · have : 0 < countE adj t x := by omega
        obtain ⟨q, hq, hxq⟩ := ih this
        exact ⟨q, List.mem_cons_of_mem p hq, hxq⟩


lemma decrOne_fst (st : (String → Int) × List String) (nb x : String) :
    (decrOne st nb).1 x = if x = nb then st.1 nb - 1 else st.1 x := by
  simp [decrOne, Function.update_apply]

lemma decrOne_snd (st : (String → Int) × List String) (nb : String) :
    (decrOne st nb).2 = if st.1 nb - 1 = 0 then st.2 ++ [nb] else st.2 := by
  simp [decrOne]

lemma decrFold_deg (l : List String) :
    ∀ (st : (String → Int) × List String) (x : String),
      ((l.foldl decrOne st).1) x = st.1 x - (l.count x : Int) := by
  induction l with
  | nil => intro st x; simp
  | cons nb t ih =>
      intro st x
      rw [List.foldl_cons, ih, decrOne_fst]
      by_cases hx : x = nb
      · subst hx
        rw [if_pos rfl, List.count_cons_self]
        push_cast
        ring
      · rw [if_neg hx, List.count_cons_of_ne hx]

lemma decrFold_mem (l : List String) :
    ∀ (st : (String → Int) × List String) (x : String),
      x ∈ (l.foldl decrOne st).2 ↔
        x ∈ st.2 ∨ (1 ≤ st.1 x ∧ st.1 x ≤ (l.count x : Int)) := by
  induction l with
  | nil =>
      intro st x
      simp only [List.foldl_nil, List.count_nil, Nat.cast_zero]
      constructor
      · exact Or.inl
      · rintro (h | h)
        · exact h
        · omega
  | cons nb t ih =>
      intro st x
      rw [List.foldl_cons, ih, decrOne_fst, decrOne_snd]
      by_cases hz : st.1 nb - 1 = 0
      · by_cases hx : x = nb
        · subst hx
          rw [if_pos hz, if_pos rfl, List.count_cons_self]
          simp only [List.mem_append, List.mem_singleton]
          push_cast
          constructor
          · rintro ((h | h) | h)
            · exact Or.inl h
            · exact Or.inr (by omega)
            · exact Or.inr (by omega)
          · rintro (h | h)
            · exact Or.inl (Or.inl h)
            · exact Or.inl (Or.inr (by trivial))
        · rw [if_pos hz, if_neg hx, List.count_cons_of_ne hx]
          simp only [List.mem_append, List.mem_singleton]
          constructor
          · rintro ((h | h) | h)
            · exact Or.inl h
            · exact absurd h hx
            · exact Or.inr h
          · rintro (h | h)
            · exact Or.inl (Or.inl h)
            · exact Or.inr h
      · by_cases hx : x = nb
        · subst hx
          rw [if_neg hz, if_pos rfl, List.count_cons_self]
          push_cast
          constructor
          · rintro (h | h)
            · exact Or.inl h
            · exact Or.inr (by omega)
          · rintro (h | h)
            · exact Or.inl h
            · exact Or.inr (by omega)
        · rw [if_neg hz, if_neg hx, List.count_cons_of_ne hx]

lemma decrFold_clean (l : List String) :
    ∀ (st : (String → Int) × List String),
      st.2.Nodup → (∀ x ∈ st.2, st.1 x ≤ 0) →
      ((l.foldl decrOne st).2.Nodup ∧
        ∀ x ∈ (l.foldl decrOne st).2, (l.foldl decrOne st).1 x ≤ 0) := by
  induction l with
  | nil => intro st h1 h2; exact ⟨h1, h2⟩
  | cons nb t ih =>
      intro st h1 h2
      rw [List.foldl_cons]
      apply ih
      · rw [decrOne_snd]
        by_cases hz : st.1 nb - 1 = 0
        · rw [if_pos hz, List.nodup_append]
          refine ⟨h1, List.nodup_singleton nb, ?_⟩
          intro a ha hb
          rw [List.mem_singleton] at hb
          subst hb
          have := h2 a ha
          omega
        · rw [if_neg hz]
          exact h1
      · intro x hx
        rw [decrOne_fst]
        rw [decrOne_snd] at hx
        by_cases hz : st.1 nb - 1 = 0
        · rw [if_pos hz, List.mem_append, List.mem_singleton] at hx
          by_cases hxnb : x = nb
          · rw [if_pos hxnb]
            omega
          · rw [if_neg hxnb]
            rcases hx with hx | hx
            · exact h2 x hx
            · exact absurd hx hxnb
        · rw [if_neg hz] at hx
          by_cases hxnb : x = nb
          · rw [if_pos hxnb]
            subst hxnb
            have := h2 x hx
            omega
          · rw [if_neg hxnb]
            exact h2 x hx

lemma roundFold_deg (adj : String → List String) (ps : List String) :
    ∀ (st : (String → Int) × List String) (x : String),
      ((ps.foldl (processNode adj) st).1) x = st.1 x - (countE adj ps x : Int) := by
  induction ps with
  | nil => intro st x; simp [countE]
  | cons p t ih =>
      intro st x
      rw [List.foldl_cons, ih, processNode, decrFold_deg, countE_cons]
      push_cast
      ring

lemma roundFold_mem (adj : String → List String) (ps : List String) :
    ∀ (st : (String → Int) × List String) (x : String),
      x ∈ (ps.foldl (processNode adj) st).2 ↔
        x ∈ st.2 ∨ (1 ≤ st.1 x ∧ st.1 x ≤ (countE adj ps x : Int)) := by
  induction ps with
  | nil =>
      intro st x
      simp only [List.foldl_nil, countE, List.map_nil, List.sum_nil, Nat.cast_zero]
      constructor
      · exact Or.inl
      · rintro (h | h)
        · exact h
        · omega
  | cons p t ih =>
      intro st x
      rw [List.foldl_cons, ih, processNode, decrFold_mem, decrFold_deg, countE_cons]
      constructor
      · rintro ((h | h) | h)
        · exact Or.inl h
        · right
          push_cast at h ⊢
          omega
        · right
          push_cast at h ⊢
          omega
      · rintro (h | h)
        · exact Or.inl (Or.inl h)
        · push_cast at h
          by_cases hc : st.1 x ≤ (((adj p).count x : Nat) : Int)
          · left; right
            push_cast
            omega
          · right
            push_cast
            omega

lemma roundFold_clean (adj : String → List String) (ps : List String) :
    ∀ (st : (String → Int) × List String),
      st.2.Nodup → (∀ x ∈ st.2, st.1 x ≤ 0) →
      ((ps.foldl (processNode adj) st).2.Nodup ∧
        ∀ x ∈ (ps.foldl (processNode adj) st).2, (ps.foldl (processNode adj) st).1 x ≤ 0) := by
  induction ps with
  | nil => intro st h1 h2; exact ⟨h1, h2⟩
  | cons p t ih =>
      intro st h1 h2
      rw [List.foldl_cons]
      apply ih
      · exact (decrFold_clean (adj p) st h1 h2).1
      · exact (decrFold_clean (adj p) st h1 h2).2

lemma peel_master (adj : String → List String) (keys : List String) (indeg : String → Int)
    (hN : keys.Nodup)
    (hdual : ∀ x, indeg x = (countE adj keys x : Int))
    (hadjdom : ∀ p x, x ∈ adj p → p ∈ keys)
    (hadjtgt : ∀ p x, x ∈ adj p → x ∈ keys) :
    ∀ (fuel : Nat) (deg : String → Int) (queue done : List String),
      (∀ x, deg x = indeg x - (countE adj done x : Int)) →
      (done ++ queue).Nodup →
      (∀ x ∈ done ++ queue, x ∈ keys) →
      (∀ x ∈ queue, deg x = 0) →
      (∀ x ∈ queue, ∀ p, x ∈ adj p → p ∈ done) →
      (∀ x ∈ done, deg x ≤ 0) →
      (done ++ (peel adj fuel deg queue).flatten).Nodup ∧
      (∀ x ∈ (peel adj fuel deg queue).flatten, x ∈ keys) ∧
      (∀ (i : Nat) (lvl : List String), (peel adj fuel deg queue)[i]? = some lvl →
        ∀ x ∈ lvl, ∀ p, x ∈ adj p →
          p ∈ done ∨ ∃ (j : Nat) (lvl2 : List String), j < i ∧
            (peel adj fuel deg queue)[j]? = some lvl2 ∧ p ∈ lvl2) := by
  intro fuel
  induction fuel with
  | zero =>
      intro deg queue done hJ1 hJ2 hJ2b hJ3 hJ3b hJ4
      refine ⟨?_, ?_, ?_⟩
      · simp only [peel, List.flatten_nil, List.append_nil]
        exact (List.nodup_append.mp hJ2).1
      · simp [peel]
      · simp [peel]
  | succ n ih =>
      intro deg queue done hJ1 hJ2 hJ2b hJ3 hJ3b hJ4
      cases hqe : queue.isEmpty with
      | true =>
          have hpeel : peel adj (n + 1) deg queue = [] := by
            simp [peel, hqe]
          rw [hpeel]
          refine ⟨?_, ?_, ?_⟩
          · simp only [List.flatten_nil, List.append_nil]
            exact (List.nodup_append.mp hJ2).1
          · simp
          · simp
      | false =>
          have hpeel : peel adj (n + 1) deg queue =
              queue :: peel adj n ((queue.foldl (processNode adj) (deg, [])).1)
                ((queue.foldl (processNode adj) (deg, [])).2) := by
            simp [peel, hqe]
          have hdeg2 : ∀ x, ((queue.foldl (processNode adj) (deg, [])).1) x =
              deg x - (countE adj queue x : Int) := fun x => roundFold_deg adj queue (deg, []) x
          have hmem2 : ∀ x, x ∈ (queue.foldl (processNode adj) (deg, [])).2 ↔
              (1 ≤ deg x ∧ deg x ≤ (countE adj queue x : Int)) := by
            intro x
            rw [roundFold_mem adj queue (deg, []) x]
            simp
          have hclean := roundFold_clean adj queue (deg, []) List.nodup_nil
            (by intro x hx; simp at hx)
          have hdonesub : ∀ x ∈ done ++ queue, x ∈ keys := hJ2b
          -- the degree after the round, at keys outside done ++ queue, is nonnegative
          have hkeybound : ∀ x, (countE adj (done ++ queue) x : Int) ≤
              (countE adj keys x : Int) := by
            intro x
            have hsp : (done ++ queue).Subperm keys :=
              List.subperm_of_subset hJ2 hdonesub
            exact_mod_cast countE_subperm_le adj hsp x
          have hJ1' : ∀ x, ((queue.foldl (processNode adj) (deg, [])).1) x =
              indeg x - (countE adj (done ++ queue) x : Int) := by
            intro x
            rw [hdeg2, hJ1, countE_append]
            push_cast
            ring
          have hJ3' : ∀ x ∈ (queue.foldl (processNode adj) (deg, [])).2,
              ((queue.foldl (processNode adj) (deg, [])).1) x = 0 := by
            intro x hx
            have h1 := (hmem2 x).mp hx
            have h2 := hJ1' x
            have h3 := hdual x
            have h4 := hkeybound x
            have h5 := hdeg2 x
            omega
          have hJ3b' : ∀ x ∈ (queue.foldl (processNode adj) (deg, [])).2,
              ∀ p, x ∈ adj p → p ∈ done ++ queue := by
            intro x hx p hp
            by_contra hpd
            have hz := hJ3' x hx
            have hcnt : countE adj (done ++ queue) x = countE adj keys x := by
              have h2 := hJ1' x
              have h3 := hdual x
              have h4 := hkeybound x
              omega
            have hnd : (p :: (done ++ queue)).Nodup := List.nodup_cons.mpr ⟨hpd, hJ2⟩
            have hsub : ∀ y ∈ p :: (done ++ queue), y ∈ keys := by
              intro y hy
              rcases List.mem_cons.mp hy with rfl | hy
              · exact hadjdom _ x hp
              · exact hdonesub y hy
            have hsp : (p :: (done ++ queue)).Subperm keys :=
              List.subperm_of_subset hnd hsub
            have hle := countE_subperm_le adj hsp x
            rw [countE_cons] at hle
            have hc0 : (adj p).count x = 0 := by omega
            exact (List.count_eq_zero.mp hc0) hp
          have hJ2' : ((done ++ queue) ++ (queue.foldl (processNode adj) (deg, [])).2).Nodup
              := by
            rw [List.nodup_append]
            refine ⟨hJ2, hclean.1, ?_⟩
            intro a ha hb
            have h1 := (hmem2 a).mp hb
            rcases List.mem_append.mp ha with h | h
            · have := hJ4 a h
              omega
            · have := hJ3 a h
              omega
          have hJ2b' : ∀ x ∈ (done ++ queue) ++ (queue.foldl (processNode adj) (deg, [])).2,
              x ∈ keys := by
            intro x hx
            rcases List.mem_append.mp hx with h | h
            · exact hdonesub x h
            · have h1 := (hmem2 x).mp h
              have hpos : 0 < countE adj queue x := by omega
              obtain ⟨p, _, hxp⟩ := countE_pos_exists adj hpos
              exact hadjtgt p x hxp
          have hJ4' : ∀ x ∈ done ++ queue,
              ((queue.foldl (processNode adj) (deg, [])).1) x ≤ 0 := by
            intro x hx
            have h5 := hdeg2 x
            rcases List.mem_append.mp hx with h | h
            · have := hJ4 x h
              have : (0 : Int) ≤ (countE adj queue x : Int) := by positivity
              omega
            · have := hJ3 x h
              have : (0 : Int) ≤ (countE adj queue x : Int) := by positivity
              omega
          obtain ⟨ihN, ihK, ihP⟩ := ih ((queue.foldl (processNode adj) (deg, [])).1)
            ((queue.foldl (processNode adj) (deg, [])).2) (done ++ queue)
            hJ1' hJ2' hJ2b' hJ3' hJ3b' hJ4'
          rw [hpeel]
          refine ⟨?_, ?_, ?_⟩
          · rw [List.flatten_cons, ← List.append_assoc]
            exact ihN
          · intro x hx
            rw [List.flatten_cons, List.mem_append] at hx
            rcases hx with hx | hx
            · exact hJ2b x (List.mem_append.mpr (Or.inr hx))
            · exact ihK x hx
          · intro i lvl hlvl x hx p hp
            cases i with
            | zero =>
                simp only [List.getElem?_cons_zero, Option.some.injEq] at hlvl
                subst hlvl
                exact Or.inl (hJ3b x hx p hp)
            | succ j =>
                simp only [List.getElem?_cons_succ] at hlvl
                rcases ihP j lvl hlvl x hx p hp with hdone | ⟨j2, lvl2, hj2, hjl, hpl⟩
                · rcases List.mem_append.mp hdone with h | h
                  · exact Or.inl h
                  · exact Or.inr ⟨0, queue, Nat.succ_pos j, by simp, h⟩
                · exact Or.inr ⟨j2 + 1, lvl2, by omega, by simpa using hjl, hpl⟩

lemma find_id (courses : List Course) (hN : (keysOf courses).Nodup) (c : Course)
    (hc : c ∈ courses) :
    courses.find? (fun c2 => c2.course_id == c.course_id) = some c := by
  induction courses with
  | nil => cases hc
  | cons h t ih =>
      have hN2 : (keysOf t).Nodup ∧ h.course_id ∉ keysOf t := by
        unfold keysOf at hN ⊢
        rw [List.map_cons, List.nodup_cons] at hN
        exact ⟨hN.2, hN.1⟩
      rcases List.mem_cons.mp hc with rfl | hct
      · exact List.find?_cons_of_pos _ (by simp)
      · have hne : h.course_id ≠ c.course_id := by
          intro he
          exact hN2.2 (he ▸ List.mem_map_of_mem (fun c2 => c2.course_id) hct)
        rw [List.find?_cons_of_neg _ (by simp [hne])]
        exact ih hN2.1 hct

lemma adjListOf_eq (courses : List Course) (hN : (keysOf courses).Nodup) (other : Course)
    (ho : other ∈ courses) :
    adjListOf courses other.course_id =
      (courses.filter (fun c2 => dependsOn c2 other)).map (fun c2 => c2.course_id) := by
  unfold adjListOf
  rw [find_id courses hN other ho]

lemma adjListOf_tgt (courses : List Course) :
    ∀ p x, x ∈ adjListOf courses p → x ∈ keysOf courses := by
  intro p x hx
  unfold adjListOf at hx
  cases hg : courses.find? (fun c => c.course_id == p) with
  | none => rw [hg] at hx; simp at hx
  | some o =>
      rw [hg] at hx
      obtain ⟨c2, hc2f, rfl⟩ := List.mem_map.mp hx
      exact List.mem_map_of_mem _ (List.mem_filter.mp hc2f).1

lemma adjListOf_dom (courses : List Course) :
    ∀ p x, x ∈ adjListOf courses p → p ∈ keysOf courses := by
  intro p x hx
  unfold adjListOf at hx
  cases hg : courses.find? (fun c => c.course_id == p) with
  | none => rw [hg] at hx; simp at hx
  | some o =>
      have ho : o ∈ courses := List.mem_of_find?_eq_some hg
      have hop : o.course_id = p := by simpa using List.find?_some hg
      exact hop ▸ List.mem_map_of_mem (fun c2 => c2.course_id) ho

lemma countP_id_unique (courses : List Course) (hN : (keysOf courses).Nodup) (c : Course)
    (hc : c ∈ courses) (P : Course → Bool) :
    courses.countP (fun c2 => (c2.course_id == c.course_id) && P c2) =
      if P c then 1 else 0 := by
  induction courses with
  | nil => cases hc
  | cons h t ih =>
      have hN2 : (keysOf t).Nodup ∧ h.course_id ∉ keysOf t := by
        unfold keysOf at hN ⊢
        rw [List.map_cons, List.nodup_cons] at hN
        exact ⟨hN.2, hN.1⟩
      rcases List.mem_cons.mp hc with rfl | hct
      · rw [List.countP_cons]
        have ht0 : t.countP (fun c2 => (c2.course_id == c.course_id) && P c2) = 0 := by
          rw [List.countP_eq_zero]
          intro a ha
          simp only [Bool.and_eq_true, beq_iff_eq, not_and]
          intro heq _
          exact hN2.2 (heq ▸ List.mem_map_of_mem (fun c2 => c2.course_id) ha)
        rw [ht0]
        simp
      · rw [List.countP_cons]
        have hne : h.course_id ≠ c.course_id := by
          intro he
          exact hN2.2 (he ▸ List.mem_map_of_mem (fun c2 => c2.course_id) hct)
        have hp0 : ((h.course_id == c.course_id) && P h) = false := by
          simp [hne]
        rw [hp0]
        simp only [Bool.false_eq_true, if_false, Nat.add_zero]
        exact ih hN2.1 hct

lemma sum_map_ite (P : Course → Bool) (l : List Course) :
    (l.map fun a => if P a then (1 : Nat) else 0).sum = (l.filter P).length := by
  induction l with
  | nil => simp
  | cons h t ih =>
      rw [List.map_cons, List.sum_cons, List.filter_cons]
      by_cases hp : P h
      · rw [if_pos hp, if_pos hp, List.length_cons, ih]
        omega
      · rw [if_neg hp, if_neg (by simpa using hp), ih]
        omega

lemma inDegOf_dual (courses : List Course) (hN : (keysOf courses).Nodup) (x : String) :
    inDegOf courses x = (countE (adjListOf courses) (keysOf courses) x : Int) := by
  have hrw : countE (adjListOf courses) (keysOf courses) x =
      (courses.map fun other => (adjListOf courses other.course_id).count x).sum := by
    unfold countE keysOf
    rw [List.map_map]
    rfl
  unfold inDegOf
  cases hf : courses.find? (fun c2 => c2.course_id == x) with
  | none =>
      have hall : ∀ other ∈ courses, (adjListOf courses other.course_id).count x = 0 := by
        intro other _
        rw [List.count_eq_zero]
        intro hx
        unfold adjListOf at hx
        cases hg : courses.find? (fun c => c.course_id == other.course_id) with
        | none => rw [hg] at hx; simp at hx
        | some o2 =>
            rw [hg] at hx
            obtain ⟨c2, hc2f, hc2x⟩ := List.mem_map.mp hx
            have hc2 : c2 ∈ courses := (List.mem_filter.mp hc2f).1
            have hnone := List.find?_eq_none.mp hf c2 hc2
            simp [hc2x] at hnone
      have hzero : (courses.map fun other =>
          (adjListOf courses other.course_id).count x).sum = 0 := by
        apply List.sum_eq_zero
        intro y hy
        obtain ⟨other, ho, rfl⟩ := List.mem_map.mp hy
        exact hall other ho
      rw [hrw, hzero]
      simp
  | some c =>
      have hc : c ∈ courses := List.mem_of_find?_eq_some hf
      have hcx : c.course_id = x := by simpa using List.find?_some hf
      have hterm : ∀ other ∈ courses, (adjListOf courses other.course_id).count x =
          if dependsOn c other then 1 else 0 := by
        intro other ho
        rw [adjListOf_eq courses hN other ho]
        rw [List.count_eq_countP, List.countP_map, List.countP_filter]
        have hshape : (fun c2 => ((fun y => y == x) ∘ fun c2 => c2.course_id) c2 &&
            dependsOn c2 other) = (fun c2 => (c2.course_id == c.course_id) &&
            dependsOn c2 other) := by
          funext c2
          rw [hcx]
          rfl
        rw [hshape, countP_id_unique courses hN c hc (fun c2 => dependsOn c2 other)]
      have hmapeq : (courses.map fun other =>
          (adjListOf courses other.course_id).count x) =
          courses.map fun other => if dependsOn c other then 1 else 0 :=
        List.map_congr_left hterm
      rw [hrw, hmapeq, sum_map_ite]

lemma peelLevels_sound (courses : List Course) (hN : (keysOf courses).Nodup) :
    ((peelLevels courses).flatten).Nodup ∧
    (∀ x ∈ (peelLevels courses).flatten, x ∈ keysOf courses) ∧
    (∀ (i : Nat) (lvl : List String), (peelLevels courses)[i]? = some lvl →
      ∀ x ∈ lvl, ∀ p, x ∈ adjListOf courses p →
        ∃ (j : Nat) (lvl2 : List String), j < i ∧ (peelLevels courses)[j]? = some lvl2 ∧
          p ∈ lvl2) := by
  have hqueue0 : ∀ x ∈ initQueue courses, inDegOf courses x = 0 := by
    intro x hx
    have := (List.mem_filter.mp hx).2
    simpa using this
  have hmaster := peel_master (adjListOf courses) (keysOf courses) (inDegOf courses) hN
    (fun x => inDegOf_dual courses hN x) (adjListOf_dom courses) (adjListOf_tgt courses)
    courses.length (inDegOf courses) (initQueue courses) []
    (by intro x; simp [countE])
    (by simpa using List.Nodup.filter _ hN)
    (by
      intro x hx
      simp only [List.nil_append] at hx
      exact (List.mem_filter.mp hx).1)
    hqueue0
    (by
      intro x hx p hp
      exfalso
      have hdeg : inDegOf courses x = 0 := hqueue0 x hx
      have hdual := inDegOf_dual courses hN x
      have hc0 : countE (adjListOf courses) (keysOf courses) x = 0 := by omega
      have hpk : p ∈ keysOf courses := adjListOf_dom courses p x hp
      have hle := countE_mem_le (adjListOf courses) hpk x
      rw [hc0] at hle
      have : (adjListOf courses p).count x = 0 := Nat.le_zero.mp hle
      exact (List.count_eq_zero.mp this) hp)
    (by intro x hx; simp at hx)
  obtain ⟨h1, h2, h3⟩ := hmaster
  refine ⟨by simpa using h1, h2, ?_⟩
  intro i lvl hlvl x hx p hp
  rcases h3 i lvl hlvl x hx p hp with h | h
  · simp at h
  · exact h

lemma findIdx_level (levels : List (List String)) (hND : levels.flatten.Nodup) :
    ∀ (i : Nat) (lvl : List String) (x : String), levels[i]? = some lvl → x ∈ lvl →
      levels.findIdx? (fun l => l.contains x) = some i := by
  induction levels with
  | nil => intro i lvl x h _; simp at h
  | cons L rest ih =>
      intro i lvl x hlvl hx
      have hND2 : rest.flatten.Nodup ∧ ∀ y ∈ L, y ∉ rest.flatten := by
        rw [List.flatten_cons, List.nodup_append] at hND
        exact ⟨hND.2.1, fun y hy hy2 => hND.2.2 hy hy2⟩
      cases i with
      | zero =>
          simp only [List.getElem?_cons_zero, Option.some.injEq] at hlvl
          subst hlvl
          rw [List.findIdx?_cons, if_pos (by simp [hx])]
      | succ j =>
          simp only [List.getElem?_cons_succ] at hlvl
          have hlvlmem : lvl ∈ rest := by
            obtain ⟨hlt, he⟩ := List.getElem?_eq_some.mp hlvl
            exact he ▸ List.getElem_mem hlt
          have hxr : x ∈ rest.flatten := List.mem_flatten.mpr ⟨lvl, hlvlmem, hx⟩
          have hnotL : ¬(L.contains x = true) := by
            simp only [List.contains_iff_exists_mem_beq, beq_iff_eq, not_exists, not_and]
            intro y hy hxy
            exact hND2.2 y hy (hxy ▸ hxr)
          rw [List.findIdx?_cons, if_neg hnotL, List.findIdx?_succ,
            ih hND2.1 j lvl x hlvl hx]
          rfl

/-! ## Claim C5 -/

/-- Claim C5 fails as stated: with courses `[B, A, C]` where `B` teaches
`s1`, `A` requires `s1` but also sits in a mutual cycle with `C`
(`A` requires `s3` taught by `C`, `C` requires `s2` taught by `A`), course
`A` depends on `B` with no reverse dependency, yet `A` is never peeled and
keeps the enrichment default `prerequisite_level = 0`, equal to `B`'s level —
not strictly greater. -/
theorem level_monotone_fails_on_cycle :
    dependsOn ⟨"A", ["s2"], ["s1", "s3"]⟩ ⟨"B", ["s1"], []⟩ = true ∧
    dependsOn ⟨"B", ["s1"], []⟩ ⟨"A", ["s2"], ["s1", "s3"]⟩ = false ∧
    prereqLevel [⟨"B", ["s1"], []⟩, ⟨"A", ["s2"], ["s1", "s3"]⟩, ⟨"C", ["s3"], ["s2"]⟩]
      "A" = 0 ∧
    prereqLevel [⟨"B", ["s1"], []⟩, ⟨"A", ["s2"], ["s1", "s3"]⟩, ⟨"C", ["s3"], ["s2"]⟩]
      "B" = 0 ∧
    ¬(prereqLevel [⟨"B", ["s1"], []⟩, ⟨"A", ["s2"], ["s1", "s3"]⟩, ⟨"C", ["s3"], ["s2"]⟩]
          "B" <
        prereqLevel [⟨"B", ["s1"], []⟩, ⟨"A", ["s2"], ["s1", "s3"]⟩, ⟨"C", ["s3"], ["s2"]⟩]
          "A") := by
  decide

/-- Claim C5 (amended): for courses with pairwise distinct ids, if course `A`
requires a skill taught by course `B` (so `A` depends on `B`), no reverse
dependency exists, and `A` is assigned a level by the peeling (it is not in
the remaining cycle bucket), then `level(A) > level(B)`. -/
theorem level_monotone_on_peeled (courses : List Course)
    (hN : (keysOf courses).Nodup) (A B : Course) (hA : A ∈ courses) (hB : B ∈ courses)
    (hdep : dependsOn A B = true) (hrev : dependsOn B A = false)
    (hpeeled : A.course_id ∈ (peelLevels courses).flatten) :
    prereqLevel courses B.course_id < prereqLevel courses A.course_id := by
  obtain ⟨hND, hKeys, hPreds⟩ := peelLevels_sound courses hN
  obtain ⟨lvlA, hlvlA_mem, hxA⟩ := List.mem_flatten.mp hpeeled
  obtain ⟨i, hiA⟩ := List.mem_iff_getElem?.mp hlvlA_mem
  have hadj : A.course_id ∈ adjListOf courses B.course_id := by
    rw [adjListOf_eq courses hN B hB]
    exact List.mem_map_of_mem _ (List.mem_filter.mpr ⟨hA, hdep⟩)
  obtain ⟨j, lvlB, hj, hjB, hpB⟩ := hPreds i lvlA hiA A.course_id hxA B.course_id hadj
  have hfA : (peelLevels courses).findIdx? (fun lvl => lvl.contains A.course_id) =
      some i := findIdx_level _ hND i lvlA A.course_id hiA hxA
  have hfB : (peelLevels courses).findIdx? (fun lvl => lvl.contains B.course_id) =
      some j := findIdx_level _ hND j lvlB B.course_id hjB hpB
  unfold prereqLevel
  rw [hfA, hfB]
  exact hj

/-- Witness for C5 (amended): `A` requires `s1` taught by `B`, no cycle; `A`
is peeled at level 1, `B` at level 0, and `0 < 1`. -/
theorem level_monotone_on_peeled_witness :
    prereqLevel [⟨"A", ["s2"], ["s1"]⟩, ⟨"B", ["s1"], []⟩]
        (Course.course_id ⟨"B", ["s1"], []⟩) <
      prereqLevel [⟨"A", ["s2"], ["s1"]⟩, ⟨"B", ["s1"], []⟩]
        (Course.course_id ⟨"A", ["s2"], ["s1"]⟩) :=
  level_monotone_on_peeled [⟨"A", ["s2"], ["s1"]⟩, ⟨"B", ["s1"], []⟩] (by decide)
    ⟨"A", ["s2"], ["s1"]⟩ ⟨"B", ["s1"], []⟩ (by decide) (by decide) (by decide) (by decide)
    (by decide)

/-! ## Claim C7 -/

/-- Claim C7: for every input with pairwise distinct course ids containing
two mutually dependent courses `A` and `B` (each requires a skill the other
teaches), the peeling never assigns either a level: neither id appears in
any peeled level, both land in the remaining bucket that
`_create_learning_path` appends after all levels, and the output order is a
permutation of the input course ids — every course appears exactly once. -/
theorem cycle_nodes_in_remaining (courses : List Course) (hN : (keysOf courses).Nodup)
    (A B : Course) (hA : A ∈ courses) (hB : B ∈ courses)
    (hAB : dependsOn A B = true) (hBA : dependsOn B A = true) :
    A.course_id ∉ (peelLevels courses).flatten ∧
    B.course_id ∉ (peelLevels courses).flatten ∧
    A.course_id ∈ remainingOf courses ∧
    B.course_id ∈ remainingOf courses ∧
    (createLearningPath courses).Perm (keysOf courses) := by
  obtain ⟨hND, hKeys, hPreds⟩ := peelLevels_sound courses hN
  have hadjAB : A.course_id ∈ adjListOf courses B.course_id := by
    rw [adjListOf_eq courses hN B hB]
    exact List.mem_map_of_mem _ (List.mem_filter.mpr ⟨hA, hAB⟩)
  have hadjBA : B.course_id ∈ adjListOf courses A.course_id := by
    rw [adjListOf_eq courses hN A hA]
    exact List.mem_map_of_mem _ (List.mem_filter.mpr ⟨hB, hBA⟩)
  have hAnot : ∀ (i : Nat), ∀ lvl, (peelLevels courses)[i]? = some lvl →
      A.course_id ∉ lvl := by
    intro i
    induction i using Nat.strong_induction_on with
    | _ i ihs =>
        intro lvl hlvl hxA
        obtain ⟨j, lvlB, hj, hjB, hpB⟩ := hPreds i lvl hlvl A.course_id hxA
          B.course_id hadjAB
        obtain ⟨j2, lvlA2, hj2, hj2A, hpA2⟩ := hPreds j lvlB hjB B.course_id hpB
          A.course_id hadjBA
        exact ihs j2 (by omega) lvlA2 hj2A hpA2
  have hBnot : ∀ (i : Nat), ∀ lvl, (peelLevels courses)[i]? = some lvl →
      B.course_id ∉ lvl := by
    intro i lvl hlvl hxB
    obtain ⟨j2, lvlA2, _, hj2A, hpA2⟩ := hPreds i lvl hlvl B.course_id hxB
      A.course_id hadjBA
    exact hAnot j2 lvlA2 hj2A hpA2
  have hAflat : A.course_id ∉ (peelLevels courses).flatten := by
    intro hx
    obtain ⟨lvl, hlvlmem, hxl⟩ := List.mem_flatten.mp hx
    obtain ⟨i, hi⟩ := List.mem_iff_getElem?.mp hlvlmem
    exact hAnot i lvl hi hxl
  have hBflat : B.course_id ∉ (peelLevels courses).flatten := by
    intro hx
    obtain ⟨lvl, hlvlmem, hxl⟩ := List.mem_flatten.mp hx
    obtain ⟨i, hi⟩ := List.mem_iff_getElem?.mp hlvlmem
    exact hBnot i lvl hi hxl
  have hAkeys : A.course_id ∈ keysOf courses :=
    List.mem_map_of_mem (fun c => c.course_id) hA
  have hBkeys : B.course_id ∈ keysOf courses :=
    List.mem_map_of_mem (fun c => c.course_id) hB
  refine ⟨hAflat, hBflat, ?_, ?_, ?_⟩
  · unfold remainingOf
    rw [List.mem_filter]
    exact ⟨hAkeys, by simpa using hAflat⟩
  · unfold remainingOf
    rw [List.mem_filter]
    exact ⟨hBkeys, by simpa using hBflat⟩
  · unfold createLearningPath remainingOf
    have hLnodup : ((peelLevels courses).flatten ++
        (keysOf courses).filter
          (fun cid => !((peelLevels courses).flatten.contains cid))).Nodup := by
      rw [List.nodup_append]
      refine ⟨hND, List.Nodup.filter _ hN, ?_⟩
      intro a ha hb
      have hcf := (List.mem_filter.mp hb).2
      simp only [Bool.not_eq_true'] at hcf
      have hnotmem : a ∉ (peelLevels courses).flatten := by simpa using hcf
      exact hnotmem ha
    rw [List.perm_ext_iff_of_nodup hLnodup hN]
    intro a
    constructor
    · intro ha
      rcases List.mem_append.mp ha with h | h
      · exact hKeys a h
      · exact (List.mem_filter.mp h).1
    · intro ha
      by_cases hf : a ∈ (peelLevels courses).flatten
      · exact List.mem_append.mpr (Or.inl hf)
      · refine List.mem_append.mpr (Or.inr (List.mem_filter.mpr ⟨ha, ?_⟩))
        simpa using hf

/-- Witness for C7: the minimal two-course mutual cycle. -/
theorem cycle_nodes_in_remaining_witness :
    (Course.course_id ⟨"A", ["s2"], ["s1"]⟩) ∉
      (peelLevels [⟨"A", ["s2"], ["s1"]⟩, ⟨"B", ["s1"], ["s2"]⟩]).flatten ∧
    (Course.course_id ⟨"B", ["s1"], ["s2"]⟩) ∉
      (peelLevels [⟨"A", ["s2"], ["s1"]⟩, ⟨"B", ["s1"], ["s2"]⟩]).flatten ∧
    (Course.course_id ⟨"A", ["s2"], ["s1"]⟩) ∈
      remainingOf [⟨"A", ["s2"], ["s1"]⟩, ⟨"B", ["s1"], ["s2"]⟩] ∧
    (Course.course_id ⟨"B", ["s1"], ["s2"]⟩) ∈
      remainingOf [⟨"A", ["s2"], ["s1"]⟩, ⟨"B", ["s1"], ["s2"]⟩] ∧
    (createLearningPath [⟨"A", ["s2"], ["s1"]⟩, ⟨"B", ["s1"], ["s2"]⟩]).Perm
      (keysOf [⟨"A", ["s2"], ["s1"]⟩, ⟨"B", ["s1"], ["s2"]⟩]) :=
  cycle_nodes_in_remaining [⟨"A", ["s2"], ["s1"]⟩, ⟨"B", ["s1"], ["s2"]⟩] (by decide)
    ⟨"A", ["s2"], ["s1"]⟩ ⟨"B", ["s1"], ["s2"]⟩ (by decide) (by decide) (by decide)
    (by decide)
